import Mathlib

/-!
Shallow embedding of `grp` (src/grp/src/lib.rs), a random password generator.

The Rust code draws randomness from `rand::thread_rng()`. We model the random
source as an explicit stream of natural numbers (`Rng`): every call to
`gen_range(0, cnt)` consumes one element of the stream and reduces it modulo
`cnt`, which is a faithful model of "some value in `[0, cnt)`" and is threaded
explicitly through every function that draws randomness. Rust's `rayon`
parallel iterators are embedded as the corresponding sequential maps: the
claims under verification (lengths, counts, multisets, membership) are
invariant under the order in which independent draws happen.

`BigUint` is embedded as `Nat`; the generic argument type `T : ToBigUint` of
`RandomPassword::new` is embedded as `Int`, with `to_biguint` failing exactly
on negative values. `Vec<String>` of single-character strings is embedded as
`List Char`; the password `String` keeps Lean's `String` (a list of chars).
-/

/-- Model of the random source: an infinite stream of naturals plus a cursor. -/
structure Rng where
  seq : Nat → Nat
  pos : Nat

/-- Draw one raw value from the stream. -/
def Rng.next (g : Rng) : Nat × Rng :=
  (g.seq g.pos, ⟨g.seq, g.pos + 1⟩)

/-- Model of `thread_rng().gen_range(0, cnt)`: one draw, reduced into `[0, cnt)`. -/
def genRange (g : Rng) (cnt : Nat) : Nat × Rng :=
  ((g.next).1 % cnt, (g.next).2)

/-- A concrete random stream used to instantiate theorems at concrete inputs. -/
def natRng : Rng := ⟨fun k => k, 0⟩

/-- The chunk bound of `_DIV_UNIT`: `i8::MAX = 127`. -/
def UNIT : Nat := 127

/-- Embedding of `RandomPassword::_DIV_UNIT` (lib.rs lines 131-152):
decompose `n` into chunks of `UNIT`, the final chunk being the remainder
(possibly `0`). -/
def _DIV_UNIT (n : Nat) : List Nat :=
  if n < UNIT then [n]
  else UNIT :: _DIV_UNIT (n - UNIT)
termination_by n
decreasing_by simp_wf; simp [UNIT] at *; omega

/-- Embedding of `RandomPassword::_RAND_IDX` (lib.rs lines 165-179): draw `n`
indices via `gen_range(0, cnt)`, pushing them in draw order. -/
def _RAND_IDX (n : Nat) (cnt : Nat) (g : Rng) : List Nat × Rng :=
  match n with
  | 0 => ([], g)
  | k + 1 =>
    let p := genRange g cnt
    let rest := _RAND_IDX k cnt p.2
    (p.1 :: rest.1, rest.2)

/-- Embedding of `RandomPassword::_GEN` (lib.rs lines 183-197): for each
inclusive byte range `(start, end)`, the characters `start, start+1, ..., end`
in order, ranges concatenated in input order. -/
def _GEN (range_list : List (Nat × Nat)) : List Char :=
  (range_list.map (fun r => (List.range' r.1 (r.2 + 1 - r.1)).map (fun b => Char.ofNat b))).flatten

/-- Embedding of `RandomPassword::_DATA` (lib.rs lines 202-208):
`(letters, symbols, numbers)`. -/
def _DATA : List Char × List Char × List Char :=
  (_GEN [(65, 90), (97, 122)],
   _GEN [(33, 47), (58, 64), (91, 96), (123, 126)],
   _GEN [(48, 57)])

/-- One chunk of `_PWD`'s inner map: sample `cnt` indices, map each to
`data[idx]`, concatenate. Out-of-range indexing (impossible for non-empty
`data`) is modelled with a default character. -/
def chunkStr (cnt : Nat) (data : List Char) (g : Rng) : List Char × Rng :=
  let p := _RAND_IDX cnt data.length g
  (p.1.map (fun idx => data.getD idx 'A'), p.2)

/-- The chunk-level map of `_PWD`: assemble every chunk's string in chunk
order, threading the random stream. -/
def chunksStr (chunks : List Nat) (data : List Char) (g : Rng) : List Char × Rng :=
  match chunks with
  | [] => ([], g)
  | c :: cs =>
    let p := chunkStr c data g
    let q := chunksStr cs data p.2
    (p.1 ++ q.1, q.2)

/-- One category of `_PWD`: decompose the count with `_DIV_UNIT`, then
assemble all chunks. -/
def catStr (n : Nat) (data : List Char) (g : Rng) : List Char × Rng :=
  chunksStr (_DIV_UNIT n) data g

/-- Embedding of `RandomPassword::_PWD` (lib.rs lines 105-127): the three
categories in the fixed order letters, symbols, numbers, concatenated. -/
def _PWD (letters : Nat × List Char) (symbols : Nat × List Char) (numbers : Nat × List Char)
    (g : Rng) : List Char × Rng :=
  let p1 := catStr letters.1 letters.2 g
  let p2 := catStr symbols.1 symbols.2 p1.2
  let p3 := catStr numbers.1 numbers.2 p2.2
  (p1.1 ++ p2.1 ++ p3.1, p3.2)

/-- Embedding of `to_biguint` on the signed inputs of `new`: negative values
are not representable. -/
def to_biguint (i : Int) : Option Nat :=
  if 0 ≤ i then some i.toNat else none

/-- The `struct RandomPassword` (lib.rs lines 13-18). -/
structure RandomPassword where
  length : Nat
  sbl_cnt : Nat
  num_cnt : Nat
  content : String

/-- Error message of `new` when a conversion to `BigUint` fails (lib.rs line 74). -/
def invalidInputMsg : String :=
  "`length`, `sbl_cnt` and `num_cnt` should all be positive"

/-- Error message of `new` when `length < sbl_cnt + num_cnt` (lib.rs line 71). -/
def insufficientLengthMsg : String :=
  "`length` should be greater than or equal to `sbl_cnt` plus `num_cnt`"

/-- Embedding of `RandomPassword::new` (lib.rs lines 50-76). -/
def RandomPassword.new (length sbl_cnt num_cnt : Int) : Except String RandomPassword :=
  match to_biguint length, to_biguint sbl_cnt, to_biguint num_cnt with
  | some l, some s, some n =>
    if s + n ≤ l then
      .ok ⟨l, s, n, ""⟩
    else
      .error insufficientLengthMsg
  | _, _, _ => .error invalidInputMsg

/-- The in-place `self.swap(i, j)` of the slice shuffle: identity when an
index is out of bounds (which the shuffle never produces). -/
def swapL (l : List Char) (i j : Nat) : List Char :=
  if hi : i < l.length then
    if hj : j < l.length then
      (l.set i (l.get ⟨j, hj⟩)).set j (l.get ⟨i, hi⟩)
    else l
  else l

/-- The loop of `rand 0.6`'s `SliceRandom::shuffle`:
`for i in (1..len).rev() { swap(i, gen_range(0, i + 1)) }`.
`shuffleStep l i g` performs the iterations for indices `i, i-1, ..., 1`. -/
def shuffleStep : List Char → Nat → Rng → List Char × Rng
  | l, 0, g => (l, g)
  | l, i + 1, g =>
    let p := genRange g (i + 2)
    shuffleStep (swapL l (i + 1) p.1) i p.2

/-- Embedding of `bytes.shuffle(&mut thread_rng())` (lib.rs line 97). -/
def shuffle (l : List Char) (g : Rng) : List Char × Rng :=
  shuffleStep l (l.length - 1) g

/-- Embedding of `RandomPassword::show` (lib.rs lines 90-102): build the
categories, assemble the pre-shuffle password, shuffle it in place, store it
as `content` and return it. (`show` is a Lean keyword, hence the prime.) -/
def RandomPassword.show' (rp : RandomPassword) (g : Rng) : String × RandomPassword × Rng :=
  let data := _DATA
  let p1 := _PWD (rp.length - rp.sbl_cnt - rp.num_cnt, data.1)
                 (rp.sbl_cnt, data.2.1)
                 (rp.num_cnt, data.2.2) g
  let p2 := shuffle p1.1 p1.2
  let content := String.mk p2.1
  (content, { rp with content := content }, p2.2)

/-- How many characters of `cs` belong to the category `set`. -/
def countIn (cs : List Char) (set : List Char) : Nat :=
  cs.countP (fun c => decide (c ∈ set))

/-! ## Helper lemmas -/

theorem divUnit_ne_nil (n : Nat) : _DIV_UNIT n ≠ [] := by
  rw [_DIV_UNIT]
  split <;> simp

theorem divUnit_sum (n : Nat) : (_DIV_UNIT n).sum = n := by
  induction n using Nat.strong_induction_on with
  | _ n ih =>
    rw [_DIV_UNIT]
    split
    · simp
    · rename_i h
      rw [List.sum_cons, ih (n - UNIT) (by simp [UNIT] at *; omega)]
      simp [UNIT] at *
      omega

theorem divUnit_le (n : Nat) : ∀ c ∈ _DIV_UNIT n, c ≤ 127 := by
  induction n using Nat.strong_induction_on with
  | _ n ih =>
    rw [_DIV_UNIT]
    split
    · rename_i h
      simp [UNIT] at *
      omega
    · rename_i h
      intro c hc
      rcases List.mem_cons.mp hc with rfl | hc
      · simp [UNIT]
      · exact ih (n - UNIT) (by simp [UNIT] at *; omega) c hc

theorem divUnit_dropLast (n : Nat) : ∀ c ∈ (_DIV_UNIT n).dropLast, c = 127 := by
  induction n using Nat.strong_induction_on with
  | _ n ih =>
    rw [_DIV_UNIT]
    split
    · simp
    · rename_i h
      intro c hc
      rw [List.dropLast_cons_of_ne_nil (divUnit_ne_nil (n - UNIT))] at hc
      rcases List.mem_cons.mp hc with rfl | hc
      · simp [UNIT]
      · exact ih (n - UNIT) (by simp [UNIT] at *; omega) c hc

theorem randIdx_length (n cnt : Nat) (g : Rng) : ((_RAND_IDX n cnt g).1).length = n := by
  induction n generalizing g with
  | zero => rfl
  | succ k ih => simp [_RAND_IDX, ih]

theorem randIdx_lt (n cnt : Nat) (g : Rng) (hcnt : 0 < cnt) :
    ∀ i ∈ (_RAND_IDX n cnt g).1, i < cnt := by
  induction n generalizing g with
  | zero => simp [_RAND_IDX]
  | succ k ih =>
    intro i hi
    simp only [_RAND_IDX] at hi
    rcases List.mem_cons.mp hi with rfl | hi
    · exact Nat.mod_lt _ hcnt
    · exact ih _ i hi

theorem chunkStr_length (cnt : Nat) (data : List Char) (g : Rng) :
    ((chunkStr cnt data g).1).length = cnt := by
  simp [chunkStr, randIdx_length]

theorem chunkStr_mem (cnt : Nat) (data : List Char) (g : Rng) (hd : 0 < data.length) :
    ∀ c ∈ (chunkStr cnt data g).1, c ∈ data := by
  intro c hc
  simp only [chunkStr, List.mem_map] at hc
  obtain ⟨idx, hidx, rfl⟩ := hc
  have hlt : idx < data.length := randIdx_lt cnt data.length g hd idx hidx
  rw [List.getD_eq_getElem data 'A' hlt]
  exact List.getElem_mem hlt

theorem chunksStr_length (chunks : List Nat) (data : List Char) (g : Rng) :
    ((chunksStr chunks data g).1).length = chunks.sum := by
  induction chunks generalizing g with
  | nil => rfl
  | cons c cs ih => simp [chunksStr, chunkStr_length, ih]

theorem chunksStr_mem (chunks : List Nat) (data : List Char) (g : Rng) (hd : 0 < data.length) :
    ∀ c ∈ (chunksStr chunks data g).1, c ∈ data := by
  induction chunks generalizing g with
  | nil => simp [chunksStr]
  | cons c cs ih =>
    intro x hx
    simp only [chunksStr, List.mem_append] at hx
    rcases hx with hx | hx
    · exact chunkStr_mem c data g hd x hx
    · exact ih _ x hx

theorem catStr_length (n : Nat) (data : List Char) (g : Rng) :
    ((catStr n data g).1).length = n := by
  rw [catStr, chunksStr_length, divUnit_sum]

theorem catStr_mem (n : Nat) (data : List Char) (g : Rng) (hd : 0 < data.length) :
    ∀ c ∈ (catStr n data g).1, c ∈ data :=
  chunksStr_mem _ data g hd

theorem getSet_perm (t : List Char) (k : Nat) (hk : k < t.length) (a : Char) :
    (t.get ⟨k, hk⟩ :: t.set k a).Perm (a :: t) := by
  induction t generalizing k with
  | nil => simp at hk
  | cons c u ih =>
    cases k with
    | zero => simpa using List.Perm.swap a c u
    | succ m =>
      have hm : m < u.length := by simpa using hk
      have h1 := List.Perm.swap c (u.get ⟨m, hm⟩) (u.set m a)
      have h2 := (ih m hm).cons c
      have h3 := List.Perm.swap a c u
      simpa using (h1.trans h2).trans h3

theorem setSet_perm (l : List Char) (i j : Nat) (hi : i < l.length) (hj : j < l.length) :
    ((l.set i (l.get ⟨j, hj⟩)).set j (l.get ⟨i, hi⟩)).Perm l := by
  induction l generalizing i j with
  | nil => simp at hi
  | cons c u ih =>
    cases i with
    | zero =>
      cases j with
      | zero => simp
      | succ m => simpa using getSet_perm u m (by simpa using hj) c
    | succ k =>
      cases j with
      | zero => simpa using getSet_perm u k (by simpa using hi) c
      | succ m => simpa using (ih k m (by simpa using hi) (by simpa using hj)).cons c

theorem swapL_perm (l : List Char) (i j : Nat) : (swapL l i j).Perm l := by
  unfold swapL
  split
  · split
    · exact setSet_perm l i j (by assumption) (by assumption)
    · exact List.Perm.refl l
  · exact List.Perm.refl l

theorem shuffleStep_perm (i : Nat) (l : List Char) (g : Rng) :
    ((shuffleStep l i g).1).Perm l := by
  induction i generalizing l g with
  | zero => exact List.Perm.refl l
  | succ k ih =>
    rw [shuffleStep]
    exact (ih _ _).trans (swapL_perm l (k + 1) _)

theorem shuffle_is_perm (l : List Char) (g : Rng) : ((shuffle l g).1).Perm l :=
  shuffleStep_perm (l.length - 1) l g

theorem countIn_append (a b : List Char) (set : List Char) :
    countIn (a ++ b) set = countIn a set + countIn b set :=
  List.countP_append _ a b

theorem countIn_eq_length (l set : List Char) (h : ∀ c ∈ l, c ∈ set) :
    countIn l set = l.length :=
  List.countP_eq_length.mpr (fun a ha => decide_eq_true (h a ha))

theorem countIn_eq_zero (l set : List Char) (h : ∀ c ∈ l, c ∉ set) :
    countIn l set = 0 :=
  List.countP_eq_zero.mpr (fun a ha => by simpa using h a ha)

theorem countIn_perm {a b : List Char} (h : a.Perm b) (set : List Char) :
    countIn a set = countIn b set :=
  h.countP_eq _

theorem letters_disj : ∀ c ∈ _DATA.1, c ∉ _DATA.2.1 ∧ c ∉ _DATA.2.2 := by decide

theorem symbols_disj : ∀ c ∈ _DATA.2.1, c ∉ _DATA.1 ∧ c ∉ _DATA.2.2 := by decide

theorem digits_disj : ∀ c ∈ _DATA.2.2, c ∉ _DATA.1 ∧ c ∉ _DATA.2.1 := by decide

theorem data_nonempty : 0 < _DATA.1.length ∧ 0 < _DATA.2.1.length ∧ 0 < _DATA.2.2.length := by
  decide

theorem letters_ascii : ∀ c ∈ _DATA.1, 33 ≤ c.toNat ∧ c.toNat ≤ 126 := by decide

theorem symbols_ascii : ∀ c ∈ _DATA.2.1, 33 ≤ c.toNat ∧ c.toNat ≤ 126 := by decide

theorem digits_ascii : ∀ c ∈ _DATA.2.2, 33 ≤ c.toNat ∧ c.toNat ≤ 126 := by decide

theorem utf8Size_one (c : Char) (h : c.toNat ≤ 126) : c.utf8Size = 1 := by
  have hv : c.val ≤ (127 : UInt32) := Nat.le_trans h (by decide)
  simp [Char.utf8Size, hv]

theorem utf8_go_eq_length (l : List Char) (h : ∀ c ∈ l, c.toNat ≤ 126) :
    String.utf8ByteSize.go l = l.length := by
  induction l with
  | nil => rfl
  | cons c cs ih =>
    simp only [String.utf8ByteSize.go, List.length_cons]
    rw [ih (fun x hx => h x (List.mem_cons_of_mem _ hx)),
        utf8Size_one c (h c (List.mem_cons_self _ _))]

theorem pwd_decomp (lc sc nc : Nat) (g : Rng) :
    (_PWD (lc, _DATA.1) (sc, _DATA.2.1) (nc, _DATA.2.2) g).1 =
      (catStr lc _DATA.1 g).1 ++
      (catStr sc _DATA.2.1 (catStr lc _DATA.1 g).2).1 ++
      (catStr nc _DATA.2.2 (catStr sc _DATA.2.1 (catStr lc _DATA.1 g).2).2).1 := rfl

/-! ## Claim theorems -/

/-- Claim C2: for every non-negative integer `n`, the chunk sequence of
`_DIV_UNIT` is non-empty (`n = 0` yields `[0]`), sums to exactly `n`, every
chunk is at most `127`, and every chunk except possibly the last equals
`UNIT = 127`. -/
theorem C2_divUnit_chunks (n : Nat) :
    _DIV_UNIT n ≠ [] ∧ (_DIV_UNIT n).sum = n ∧
    (∀ c ∈ _DIV_UNIT n, c ≤ 127) ∧
    (∀ c ∈ (_DIV_UNIT n).dropLast, c = 127) ∧
    _DIV_UNIT 0 = [0] :=
  ⟨divUnit_ne_nil n, divUnit_sum n, divUnit_le n, divUnit_dropLast n,
   by rw [_DIV_UNIT]; simp [UNIT]⟩

/-- Claim C3: for every chunk size `k` and category cardinality `cnt > 0`,
`_RAND_IDX` returns exactly `k` indices, each in `[0, cnt)`. -/
theorem C3_randIdx_spec (k cnt : Nat) (g : Rng) (h : 0 < cnt) :
    ((_RAND_IDX k cnt g).1).length = k ∧ ∀ i ∈ (_RAND_IDX k cnt g).1, i < cnt :=
  ⟨randIdx_length k cnt g, randIdx_lt k cnt g h⟩

/-- Witness for C3 at `k = 5`, `cnt = 10` and a concrete random stream. -/
theorem C3_witness :
    0 < 10 ∧
      (((_RAND_IDX 5 10 natRng).1).length = 5 ∧ ∀ i ∈ (_RAND_IDX 5 10 natRng).1, i < 10) :=
  ⟨by decide, C3_randIdx_spec 5 10 natRng (by decide)⟩

/-- Claim C4: for non-negative inputs, `new` fails with the insufficient-length
error exactly when `length < sbl_cnt + num_cnt`. -/
theorem C4_new_insufficient (l s n : Int) (hl : 0 ≤ l) (hs : 0 ≤ s) (hn : 0 ≤ n) :
    (RandomPassword.new l s n = .error insufficientLengthMsg ↔ l < s + n) := by
  have hl' : to_biguint l = some l.toNat := by simp [to_biguint, hl]
  have hs' : to_biguint s = some s.toNat := by simp [to_biguint, hs]
  have hn' : to_biguint n = some n.toNat := by simp [to_biguint, hn]
  simp only [RandomPassword.new, hl', hs', hn']
  by_cases hc : s.toNat + n.toNat ≤ l.toNat
  · simp only [if_pos hc]
    constructor
    · intro hcontra
      exact absurd hcontra (by simp)
    · intro hlt
      exact absurd hlt (by omega)
  · simp only [if_neg hc]
    constructor
    · intro _
      omega
    · intro _
      trivial

/-- Witness for C4: `new 3 3 3` fails with the insufficient-length error. -/
theorem C4_witness :
    (0 : Int) ≤ 3 ∧ RandomPassword.new 3 3 3 = .error insufficientLengthMsg :=
  ⟨by decide,
   (C4_new_insufficient 3 3 3 (by decide) (by decide) (by decide)).mpr (by decide)⟩

/-- Claim C5: `new` fails with the invalid-input error whenever any argument
is negative (the insufficient-length check is never reached: the error is the
invalid-input one even when `l < s + n` also holds). -/
theorem C5_new_invalid (l s n : Int) (h : l < 0 ∨ s < 0 ∨ n < 0) :
    RandomPassword.new l s n = .error invalidInputMsg := by
  unfold RandomPassword.new
  cases hl : to_biguint l with
  | none => rfl
  | some a =>
    cases hs : to_biguint s with
    | none => rfl
    | some b =>
      cases hn : to_biguint n with
      | none => rfl
      | some c =>
        exfalso
        rcases h with h | h | h
        · simp [to_biguint, show ¬ (0 ≤ l) by omega] at hl
        · simp [to_biguint, show ¬ (0 ≤ s) by omega] at hs
        · simp [to_biguint, show ¬ (0 ≤ n) by omega] at hn

/-- Witness for C5 at the concrete negative input `(-1, 1, 1)`. -/
theorem C5_witness :
    ((-1 : Int) < 0 ∨ (1 : Int) < 0 ∨ (1 : Int) < 0) ∧
      RandomPassword.new (-1) 1 1 = .error invalidInputMsg :=
  ⟨by decide, C5_new_invalid (-1) 1 1 (by decide)⟩

/-- Claim C9: `show` stores the produced string in the `content` field (after
it returns, `content` equals the returned string) and leaves `length`,
`sbl_cnt` and `num_cnt` unchanged. -/
theorem C9_show_frame (rp : RandomPassword) (g : Rng) :
    ((RandomPassword.show' rp g).2.1).content = (RandomPassword.show' rp g).1 ∧
    ((RandomPassword.show' rp g).2.1).length = rp.length ∧
    ((RandomPassword.show' rp g).2.1).sbl_cnt = rp.sbl_cnt ∧
    ((RandomPassword.show' rp g).2.1).num_cnt = rp.num_cnt :=
  ⟨rfl, rfl, rfl, rfl⟩

/-- Claim C6: the shuffle step of `show` only permutes positions: the multiset
of characters of the returned string equals the multiset of characters of the
pre-shuffle password assembled by `_PWD`. -/
theorem C6_shuffle_multiset (rp : RandomPassword) (g : Rng) :
    Multiset.ofList ((RandomPassword.show' rp g).1).data =
      Multiset.ofList ((_PWD (rp.length - rp.sbl_cnt - rp.num_cnt, _DATA.1)
        (rp.sbl_cnt, _DATA.2.1) (rp.num_cnt, _DATA.2.2) g).1) := by
  apply Quot.sound
  exact shuffle_is_perm _ _

/-- Claim C8: `new 0 0 0` succeeds, and `show` on the resulting spec returns
the empty string (for every random stream). -/
theorem C8_zero_empty :
    RandomPassword.new 0 0 0 = .ok ⟨0, 0, 0, ""⟩ ∧
    ∀ g : Rng, (RandomPassword.show' ⟨0, 0, 0, ""⟩ g).1 = "" := by
  constructor
  · rfl
  · intro g
    have h0 : _DIV_UNIT 0 = [0] := by rw [_DIV_UNIT]; simp [UNIT]
    simp [RandomPassword.show', _PWD, catStr, h0, chunksStr, chunkStr, _RAND_IDX,
      shuffle, shuffleStep]

/-- Claim C1: for every successfully constructed spec (`S + N ≤ L`), the
string returned by `show` has exactly `L` characters, of which exactly `S`
are from the Symbols set, exactly `N` from the Digits set, and the remaining
`L - S - N` from the Letters set. -/
theorem C1_generate_counts (L S N : Nat) (g : Rng) (h : S + N ≤ L) :
    (((RandomPassword.show' ⟨L, S, N, ""⟩ g).1).data).length = L ∧
    countIn ((RandomPassword.show' ⟨L, S, N, ""⟩ g).1).data _DATA.2.1 = S ∧
    countIn ((RandomPassword.show' ⟨L, S, N, ""⟩ g).1).data _DATA.2.2 = N ∧
    countIn ((RandomPassword.show' ⟨L, S, N, ""⟩ g).1).data _DATA.1 = L - S - N := by
  obtain ⟨hL1, hS1, hN1⟩ := data_nonempty
  have hperm : (((RandomPassword.show' ⟨L, S, N, ""⟩ g).1).data).Perm
      ((_PWD (L - S - N, _DATA.1) (S, _DATA.2.1) (N, _DATA.2.2) g).1) :=
    shuffle_is_perm _ _
  have hlen : ((_PWD (L - S - N, _DATA.1) (S, _DATA.2.1) (N, _DATA.2.2) g).1).length
      = (L - S - N) + S + N := by
    rw [pwd_decomp]
    simp [catStr_length]
    omega
  have hcS : countIn ((_PWD (L - S - N, _DATA.1) (S, _DATA.2.1) (N, _DATA.2.2) g).1)
      _DATA.2.1 = S := by
    rw [pwd_decomp, countIn_append, countIn_append]
    rw [countIn_eq_zero _ _ (fun c hc => (letters_disj c (catStr_mem _ _ _ hL1 c hc)).1)]
    rw [countIn_eq_length _ _ (catStr_mem _ _ _ hS1)]
    rw [countIn_eq_zero _ _ (fun c hc => (digits_disj c (catStr_mem _ _ _ hN1 c hc)).2)]
    simp [catStr_length]
  have hcN : countIn ((_PWD (L - S - N, _DATA.1) (S, _DATA.2.1) (N, _DATA.2.2) g).1)
      _DATA.2.2 = N := by
    rw [pwd_decomp, countIn_append, countIn_append]
    rw [countIn_eq_zero _ _ (fun c hc => (letters_disj c (catStr_mem _ _ _ hL1 c hc)).2)]
    rw [countIn_eq_zero _ _ (fun c hc => (symbols_disj c (catStr_mem _ _ _ hS1 c hc)).2)]
    rw [countIn_eq_length _ _ (catStr_mem _ _ _ hN1)]
    simp [catStr_length]
  have hcL : countIn ((_PWD (L - S - N, _DATA.1) (S, _DATA.2.1) (N, _DATA.2.2) g).1)
      _DATA.1 = L - S - N := by
    rw [pwd_decomp, countIn_append, countIn_append]
    rw [countIn_eq_length _ _ (catStr_mem _ _ _ hL1)]
    rw [countIn_eq_zero _ _ (fun c hc => (symbols_disj c (catStr_mem _ _ _ hS1 c hc)).1)]
    rw [countIn_eq_zero _ _ (fun c hc => (digits_disj c (catStr_mem _ _ _ hN1 c hc)).1)]
    simp [catStr_length]
  refine ⟨?_, ?_, ?_, ?_⟩
  · rw [hperm.length_eq, hlen]
    omega
  · rw [countIn_perm hperm, hcS]
  · rw [countIn_perm hperm, hcN]
  · rw [countIn_perm hperm, hcL]

/-- Witness for C1 at the concrete spec `(4, 1, 1)` and a concrete random
stream. -/
theorem C1_witness :
    1 + 1 ≤ 4 ∧
    ((((RandomPassword.show' ⟨4, 1, 1, ""⟩ natRng).1).data).length = 4 ∧
     countIn ((RandomPassword.show' ⟨4, 1, 1, ""⟩ natRng).1).data _DATA.2.1 = 1 ∧
     countIn ((RandomPassword.show' ⟨4, 1, 1, ""⟩ natRng).1).data _DATA.2.2 = 1 ∧
     countIn ((RandomPassword.show' ⟨4, 1, 1, ""⟩ natRng).1).data _DATA.1 = 4 - 1 - 1) :=
  ⟨by decide, C1_generate_counts 4 1 1 natRng (by decide)⟩

/-- Claim C7: `_GEN` is a pure function returning, for each inclusive byte
range, the characters of every byte in ascending order, ranges concatenated in
input order; with the fixed range lists of `_DATA` it yields exactly the
52-entry Letters set, the 32-entry Symbols set and the 10-entry Digits set. -/
theorem C7_gen_data :
    (∀ rs : List (Nat × Nat),
        _GEN rs =
          (rs.map (fun r => (List.range' r.1 (r.2 + 1 - r.1)).map
            (fun b => Char.ofNat b))).flatten) ∧
    _DATA.1 = ['A', 'B', 'C', 'D', 'E', 'F', 'G', 'H', 'I', 'J', 'K', 'L', 'M',
               'N', 'O', 'P', 'Q', 'R', 'S', 'T', 'U', 'V', 'W', 'X', 'Y', 'Z',
               'a', 'b', 'c', 'd', 'e', 'f', 'g', 'h', 'i', 'j', 'k', 'l', 'm',
               'n', 'o', 'p', 'q', 'r', 's', 't', 'u', 'v', 'w', 'x', 'y', 'z'] ∧
    _DATA.2.1 = ['!', '\x22', '#', '$', '%', '&', '\x27', '(', ')', '*', '+',
                 ',', '-', '.', '/', ':', ';', '<', '=', '>', '?', '@', '[',
                 '\x5C', ']', '^', '_', '\x60', '\x7B', '|', '\x7D', '~'] ∧
    _DATA.2.2 = ['0', '1', '2', '3', '4', '5', '6', '7', '8', '9'] ∧
    _DATA.1.length = 52 ∧ _DATA.2.1.length = 32 ∧ _DATA.2.2.length = 10 := by
  refine ⟨fun rs => rfl, ?_, ?_, ?_, ?_, ?_, ?_⟩ <;> decide

/-- Claim C10: every character of the pre-shuffle password built by `_PWD` is
a single-byte ASCII character (byte value between 33 and 126), so the
string's UTF-8 byte length equals its character count and the in-place byte
shuffle cannot split a multi-byte character. -/
theorem C10_pwd_ascii (L S N : Nat) (g : Rng) :
    (∀ c ∈ (_PWD (L, _DATA.1) (S, _DATA.2.1) (N, _DATA.2.2) g).1,
        33 ≤ c.toNat ∧ c.toNat ≤ 126) ∧
    (String.mk (_PWD (L, _DATA.1) (S, _DATA.2.1) (N, _DATA.2.2) g).1).utf8ByteSize =
      ((_PWD (L, _DATA.1) (S, _DATA.2.1) (N, _DATA.2.2) g).1).length := by
  obtain ⟨hL1, hS1, hN1⟩ := data_nonempty
  have hmem : ∀ c ∈ (_PWD (L, _DATA.1) (S, _DATA.2.1) (N, _DATA.2.2) g).1,
      33 ≤ c.toNat ∧ c.toNat ≤ 126 := by
    intro c hc
    rw [pwd_decomp] at hc
    rcases List.mem_append.mp hc with hc | hc
    · rcases List.mem_append.mp hc with hc | hc
      · exact letters_ascii c (catStr_mem _ _ _ hL1 c hc)
      · exact symbols_ascii c (catStr_mem _ _ _ hS1 c hc)
    · exact digits_ascii c (catStr_mem _ _ _ hN1 c hc)
  exact ⟨hmem, utf8_go_eq_length _ (fun c hc => (hmem c hc).2)⟩
